import Mathlib

/-!
Verification of `src/extract.py` of cbini/smartrecruiters-sync.

Strings are modelled as `List Char`.  Python's `str.replace` (all
non-overlapping occurrences, scanning left to right) is `replaceList`;
`str.strip` is `pyStrip`; `str.lower` (restricted to ASCII letters, the
only case the data exercises) is `map lowerChar`.  The polling loop of
`main` is modelled with explicit fuel, the paginated fetch `get_all_data`
with an oracle for the HTTP responses, and the persistence step with a
functional file-system / bucket state.
-/

namespace SmartrecruitersSync

/-! ## Python string primitives over `List Char` -/

/-- One pass of Python `s.replace(p, r)`: scan left to right; on a match of
`p` emit `r` and skip `p.length` characters, otherwise keep one character.
`fuel` bounds the scan; `replaceList` supplies `s.length`, which always
suffices because every step consumes at least one character of `s`. -/
def replaceAux (p r : List Char) : Nat → List Char → List Char
  | 0, s => s
  | _fuel + 1, [] => []
  | fuel + 1, c :: rest =>
    if p.isPrefixOf (c :: rest) then
      r ++ replaceAux p r fuel (List.drop p.length (c :: rest))
    else
      c :: replaceAux p r fuel rest

/-- Python `s.replace(p, r)` for a non-empty pattern `p`. -/
def replaceList (p r s : List Char) : List Char :=
  replaceAux p r s.length s

/-- Python `str.isspace` on the characters stripped by `str.strip()`. -/
def pyIsSpace (c : Char) : Bool :=
  c = ' ' || c = '\t' || c = '\n' || c = '\x0b' || c = '\x0c' || c = '\r'

/-- Remove the trailing run of whitespace characters. -/
def dropTrailing : List Char → List Char
  | [] => []
  | c :: rest =>
    match dropTrailing rest with
    | [] => if pyIsSpace c then [] else [c]
    | d :: ds => c :: d :: ds

/-- Python `s.strip()`: drop leading and trailing whitespace. -/
def pyStrip (s : List Char) : List Char :=
  dropTrailing (s.dropWhile pyIsSpace)

/-- Python `str.lower`, restricted to the ASCII letters (the only
characters the column labels contain in upper case): code points 65-90
(`'A'`-`'Z'`) shift by 32, all other characters are unchanged. -/
def lowerChar (c : Char) : Char :=
  if 65 ≤ c.toNat ∧ c.toNat ≤ 90 then Char.ofNat (c.toNat + 32) else c

/-! ## The header-normalization chain (extract.py lines 92-111) -/

/-- The ordered find/replace pairs applied to each column label, exactly as
chained in `main` (lines 93-108 of `src/extract.py`). -/
def replacements : List (List Char × List Char) :=
  [ ("?".data, "".data)
  , ("(".data, "".data)
  , (")".data, "".data)
  , ("Screening Question Answer: ".data, "".data)
  , (": ".data, "_".data)
  , ("| ".data, "_".data)
  , (", ".data, "_".data)
  , (" ".data, "_".data)
  , ("-".data, "_".data)
  , ("/".data, "_".data)
  , ("___".data, "_".data)
  , ("__".data, "_".data)
  , ("National".data, "kf".data)
  , ("New_Jersey_Miami".data, "taf".data)
  , ("New_Jersey".data, "nj".data)
  , ("Miami".data, "mia".data) ]

/-- Apply a list of find/replace pairs in order. -/
def applyReplacements (l : List (List Char × List Char)) (s : List Char) : List Char :=
  l.foldl (fun acc pr => replaceList pr.1 pr.2 acc) s

/-- The full header normalization: the replacement chain, then `.strip()`,
then `.lower()` (lines 92-111 of `src/extract.py`). -/
def normalizeHeader (s : List Char) : List Char :=
  (pyStrip (applyReplacements replacements s)).map lowerChar

/-! ## Lemmas about the string primitives -/

theorem replaceAux_eq_self (p r : List Char) :
    ∀ (fuel : Nat) (s : List Char), ¬ p <:+: s → replaceAux p r fuel s = s := by
  intro fuel
  induction fuel with
  | zero => intro s _; rfl
  | succ n ih =>
    intro s hs
    cases s with
    | nil => rfl
    | cons c rest =>
      rw [replaceAux, if_neg, ih rest (fun h => hs (List.infix_cons h))]
      intro hpre
      exact hs (List.IsPrefix.isInfix (List.isPrefixOf_iff_prefix.mp hpre))

theorem replaceList_eq_self (p r s : List Char) (h : ¬ p <:+: s) :
    replaceList p r s = s :=
  replaceAux_eq_self p r s.length s h

theorem mem_replaceAux (p r : List Char) :
    ∀ (fuel : Nat) (s : List Char) (x : Char),
      x ∈ replaceAux p r fuel s → x ∈ r ∨ x ∈ s := by
  intro fuel
  induction fuel with
  | zero => intro s x hx; exact Or.inr hx
  | succ n ih =>
    intro s x hx
    cases s with
    | nil => exact Or.inr hx
    | cons c rest =>
      rw [replaceAux] at hx
      by_cases hp : p.isPrefixOf (c :: rest)
      · rw [if_pos hp] at hx
        rcases List.mem_append.mp hx with h | h
        · exact Or.inl h
        · rcases ih _ x h with h | h
          · exact Or.inl h
          · exact Or.inr (List.mem_of_mem_drop h)
      · rw [if_neg hp] at hx
        rcases List.mem_cons.mp hx with h | h
        · exact Or.inr (h ▸ List.mem_cons_self c rest)
        · rcases ih rest x h with h | h
          · exact Or.inl h
          · exact Or.inr (List.mem_cons_of_mem c h)

theorem not_mem_replaceAux_single (x : Char) (r : List Char) (hr : x ∉ r) :
    ∀ (fuel : Nat) (s : List Char), s.length ≤ fuel →
      x ∉ replaceAux [x] r fuel s := by
  intro fuel
  induction fuel with
  | zero =>
    intro s hlen
    have : s = [] := List.length_eq_zero.mp (Nat.le_zero.mp hlen)
    subst this
    simp [replaceAux]
  | succ n ih =>
    intro s hlen
    cases s with
    | nil => simp [replaceAux]
    | cons c rest =>
      rw [replaceAux]
      by_cases hp : List.isPrefixOf [x] (c :: rest)
      · have hxc : x = c := (List.cons_prefix_cons.mp (List.isPrefixOf_iff_prefix.mp hp)).1
        rw [if_pos hp]
        intro hmem
        rcases List.mem_append.mp hmem with h | h
        · exact hr h
        · have hlen' : (List.drop [x].length (c :: rest)).length ≤ n := by
            simp only [List.length_cons, List.length_drop] at *
            omega
          exact ih _ hlen' h
      · have hxc : x ≠ c := by
          intro he
          exact hp (List.isPrefixOf_iff_prefix.mpr
            (List.cons_prefix_cons.mpr ⟨he, List.nil_prefix⟩))
        rw [if_neg hp]
        intro hmem
        rcases List.mem_cons.mp hmem with h | h
        · exact hxc h
        · exact ih rest (by simpa using Nat.le_of_succ_le_succ hlen) h

theorem not_mem_replaceList_single (x : Char) (r : List Char) (hr : x ∉ r)
    (s : List Char) : x ∉ replaceList [x] r s :=
  not_mem_replaceAux_single x r hr s.length s le_rfl

theorem not_mem_replaceList (p r : List Char) (x : Char) (hr : x ∉ r)
    (s : List Char) (hs : x ∉ s) : x ∉ replaceList p r s := by
  intro hmem
  rcases mem_replaceAux p r s.length s x hmem with h | h
  · exact hr h
  · exact hs h

theorem applyReplacements_cons (pr : List Char × List Char)
    (l : List (List Char × List Char)) (s : List Char) :
    applyReplacements (pr :: l) s = applyReplacements l (replaceList pr.1 pr.2 s) := rfl

theorem not_mem_applyReplacements (l : List (List Char × List Char)) (x : Char)
    (hl : ∀ pr ∈ l, x ∉ pr.2) :
    ∀ s, x ∉ s → x ∉ applyReplacements l s := by
  induction l with
  | nil => intro s hs; exact hs
  | cons pr rest ih =>
    intro s hs
    rw [applyReplacements_cons]
    exact ih (fun q hq => hl q (List.mem_cons_of_mem pr hq)) _
      (not_mem_replaceList pr.1 pr.2 x (hl pr (List.mem_cons_self pr rest)) s hs)

theorem not_mem_applyReplacements_split (x : Char)
    (l pre post : List (List Char × List Char)) (r : List Char)
    (hsplit : l = pre ++ ([x], r) :: post) (hx : x ∉ r)
    (hpost : ∀ pr ∈ post, x ∉ pr.2) (s : List Char) :
    x ∉ applyReplacements l s := by
  subst hsplit
  rw [applyReplacements, List.foldl_append, List.foldl_cons]
  exact not_mem_applyReplacements post x hpost _
    (not_mem_replaceList_single x r hx _)

theorem applyReplacements_eq_self (l : List (List Char × List Char))
    (t : List Char) (h : ∀ pr ∈ l, replaceList pr.1 pr.2 t = t) :
    applyReplacements l t = t := by
  induction l with
  | nil => rfl
  | cons pr rest ih =>
    rw [applyReplacements_cons, h pr (List.mem_cons_self pr rest)]
    exact ih (fun q hq => h q (List.mem_cons_of_mem pr hq))

theorem head?_dropWhile_not_space (l : List Char) (c : Char)
    (h : (l.dropWhile pyIsSpace).head? = some c) : pyIsSpace c = false := by
  induction l with
  | nil => simp at h
  | cons a rest ih =>
    rw [List.dropWhile_cons] at h
    by_cases ha : pyIsSpace a
    · rw [if_pos ha] at h; exact ih h
    · rw [if_neg ha] at h
      simp only [List.head?_cons, Option.some_inj] at h
      subst h
      exact Bool.eq_false_iff.mpr ha

theorem dropTrailing_getLast?_not_space (l : List Char) (c : Char)
    (h : (dropTrailing l).getLast? = some c) : pyIsSpace c = false := by
  induction l with
  | nil => simp [dropTrailing] at h
  | cons a rest ih =>
    rcases hdt : dropTrailing rest with _ | ⟨d, ds⟩
    · rw [dropTrailing, hdt] at h
      by_cases ha : pyIsSpace a
      · rw [if_pos ha] at h; simp at h
      · rw [if_neg ha] at h
        simp only [List.getLast?_singleton, Option.some_inj] at h
        subst h
        exact Bool.eq_false_iff.mpr ha
    · rw [dropTrailing, hdt, List.getLast?_cons_cons] at h
      exact ih (hdt ▸ h)

theorem dropTrailing_head? (l : List Char) :
    dropTrailing l = [] ∨ (dropTrailing l).head? = l.head? := by
  cases l with
  | nil => exact Or.inl rfl
  | cons a rest =>
    rcases hdt : dropTrailing rest with _ | ⟨d, ds⟩
    · rw [dropTrailing, hdt]
      by_cases ha : pyIsSpace a
      · rw [if_pos ha]; exact Or.inl rfl
      · rw [if_neg ha]; exact Or.inr rfl
    · rw [dropTrailing, hdt]; exact Or.inr rfl

theorem mem_dropTrailing (l : List Char) (x : Char) (h : x ∈ dropTrailing l) :
    x ∈ l := by
  induction l with
  | nil => simp [dropTrailing] at h
  | cons a rest ih =>
    rcases hdt : dropTrailing rest with _ | ⟨d, ds⟩
    · rw [dropTrailing, hdt] at h
      by_cases ha : pyIsSpace a
      · rw [if_pos ha] at h; simp at h
      · rw [if_neg ha] at h
        simp only [List.mem_singleton] at h
        exact h ▸ List.mem_cons_self a rest
    · rw [dropTrailing, hdt] at h
      rcases List.mem_cons.mp h with h | h
      · exact h ▸ List.mem_cons_self a rest
      · exact List.mem_cons_of_mem a (ih (hdt ▸ h))

theorem mem_pyStrip (l : List Char) (x : Char) (h : x ∈ pyStrip l) : x ∈ l :=
  (List.dropWhile_sublist pyIsSpace).mem (mem_dropTrailing _ x h)

theorem dropWhile_eq_self_of_head (l : List Char)
    (h : ∀ c, l.head? = some c → pyIsSpace c = false) :
    l.dropWhile pyIsSpace = l := by
  cases l with
  | nil => rfl
  | cons a rest =>
    rw [List.dropWhile_cons, if_neg]
    simp [h a rfl]

theorem dropTrailing_eq_self_of_getLast (l : List Char)
    (h : ∀ c, l.getLast? = some c → pyIsSpace c = false) :
    dropTrailing l = l := by
  induction l with
  | nil => rfl
  | cons a rest ih =>
    cases rest with
    | nil =>
      have ha := h a rfl
      simp [dropTrailing, ha]
    | cons b bs =>
      have hih : dropTrailing (b :: bs) = b :: bs :=
        ih (fun c hc => h c (by rw [List.getLast?_cons_cons]; exact hc))
      rw [dropTrailing, hih]

theorem pyStrip_eq_self (l : List Char)
    (hh : ∀ c, l.head? = some c → pyIsSpace c = false)
    (hl : ∀ c, l.getLast? = some c → pyIsSpace c = false) :
    pyStrip l = l := by
  rw [pyStrip, dropWhile_eq_self_of_head l hh, dropTrailing_eq_self_of_getLast l hl]

theorem pyStrip_head?_not_space (u : List Char) (c : Char)
    (h : (pyStrip u).head? = some c) : pyIsSpace c = false := by
  rcases dropTrailing_head? (u.dropWhile pyIsSpace) with he | hh
  · rw [pyStrip, he] at h; simp at h
  · rw [pyStrip, hh] at h
    exact head?_dropWhile_not_space u c h

theorem pyStrip_getLast?_not_space (u : List Char) (c : Char)
    (h : (pyStrip u).getLast? = some c) : pyIsSpace c = false :=
  dropTrailing_getLast?_not_space _ c h

/-! ## Lemmas about `lowerChar` -/

theorem toNat_ofNat_valid (n : Nat) (h : n.isValidChar) :
    (Char.ofNat n).toNat = n := by
  rw [Char.ofNat, dif_pos h]
  rfl

theorem lowerChar_cases (c : Char) :
    lowerChar c = c ∨ lowerChar c ∈ "abcdefghijklmnopqrstuvwxyz".data := by
  unfold lowerChar
  split_ifs with h
  · obtain ⟨h1, h2⟩ := h
    right
    set n := c.toNat with hn
    interval_cases n <;> decide
  · exact Or.inl rfl

theorem lowerChar_idem (c : Char) : lowerChar (lowerChar c) = lowerChar c := by
  rcases lowerChar_cases c with h | h
  · rw [h]; exact h
  · have hfix : ∀ d ∈ "abcdefghijklmnopqrstuvwxyz".data, lowerChar d = d := by decide
    exact hfix _ h

theorem lowerChar_preimage (x : Char)
    (hx : x ∉ "abcdefghijklmnopqrstuvwxyz".data) :
    ∀ c, lowerChar c = x → c = x := by
  intro c hc
  rcases lowerChar_cases c with h | h
  · rw [h] at hc; exact hc
  · exact absurd (hc ▸ h) hx

theorem lowerChar_ne_of_upper (x : Char) (hx1 : 65 ≤ x.toNat) (hx2 : x.toNat ≤ 90)
    (c : Char) : lowerChar c ≠ x := by
  unfold lowerChar
  split_ifs with h
  · intro he
    have ht := congrArg Char.toNat he
    rw [toNat_ofNat_valid _ (Or.inl (by omega))] at ht
    omega
  · intro he
    subst he
    exact h ⟨hx1, hx2⟩

theorem lowerChar_ne_N (c : Char) : lowerChar c ≠ 'N' :=
  lowerChar_ne_of_upper 'N' (by decide) (by decide) c

theorem lowerChar_ne_M (c : Char) : lowerChar c ≠ 'M' :=
  lowerChar_ne_of_upper 'M' (by decide) (by decide) c

theorem pyIsSpace_false_of_ge (c : Char) (h : 33 ≤ c.toNat) :
    pyIsSpace c = false := by
  have h1 : c ≠ ' ' := fun he => absurd (he ▸ h) (by decide)
  have h2 : c ≠ '\t' := fun he => absurd (he ▸ h) (by decide)
  have h3 : c ≠ '\n' := fun he => absurd (he ▸ h) (by decide)
  have h4 : c ≠ '\x0b' := fun he => absurd (he ▸ h) (by decide)
  have h5 : c ≠ '\x0c' := fun he => absurd (he ▸ h) (by decide)
  have h6 : c ≠ '\r' := fun he => absurd (he ▸ h) (by decide)
  simp [pyIsSpace, h1, h2, h3, h4, h5, h6]

theorem pyIsSpace_lowerChar (c : Char) :
    pyIsSpace (lowerChar c) = pyIsSpace c := by
  unfold lowerChar
  split_ifs with h
  · have ha : pyIsSpace c = false := pyIsSpace_false_of_ge c (by omega)
    have hb : pyIsSpace (Char.ofNat (c.toNat + 32)) = false := by
      apply pyIsSpace_false_of_ge
      rw [toNat_ofNat_valid _ (Or.inl (by omega))]
      omega
    rw [ha, hb]
  · rfl

theorem not_mem_map_lowerChar (x : Char) (hfix : ∀ c, lowerChar c = x → c = x)
    (u : List Char) (hu : x ∉ u) : x ∉ u.map lowerChar := by
  intro h
  rcases List.mem_map.mp h with ⟨c, hc, hcx⟩
  exact hu ((hfix c hcx) ▸ hc)

/-! ## Facts about the output of `normalizeHeader` -/

theorem not_mem_normalizeHeader (x : Char)
    (pre post : List (List Char × List Char)) (r : List Char)
    (hsplit : replacements = pre ++ ([x], r) :: post) (hx : x ∉ r)
    (hpost : ∀ pr ∈ post, x ∉ pr.2)
    (hlc : x ∉ "abcdefghijklmnopqrstuvwxyz".data) (s : List Char) :
    x ∉ normalizeHeader s := by
  have h1 : x ∉ applyReplacements replacements s :=
    not_mem_applyReplacements_split x replacements pre post r hsplit hx hpost s
  have h2 : x ∉ pyStrip (applyReplacements replacements s) :=
    fun hm => h1 (mem_pyStrip _ x hm)
  exact not_mem_map_lowerChar x (lowerChar_preimage x hlc) _ h2

theorem qmark_not_mem (s : List Char) : '?' ∉ normalizeHeader s :=
  not_mem_normalizeHeader '?' [] (replacements.drop 1) "".data rfl
    (by decide) (by decide) (by decide) s

theorem lparen_not_mem (s : List Char) : '(' ∉ normalizeHeader s :=
  not_mem_normalizeHeader '(' (replacements.take 1) (replacements.drop 2) "".data rfl
    (by decide) (by decide) (by decide) s

theorem rparen_not_mem (s : List Char) : ')' ∉ normalizeHeader s :=
  not_mem_normalizeHeader ')' (replacements.take 2) (replacements.drop 3) "".data rfl
    (by decide) (by decide) (by decide) s

theorem space_not_mem (s : List Char) : ' ' ∉ normalizeHeader s :=
  not_mem_normalizeHeader ' ' (replacements.take 7) (replacements.drop 8) "_".data rfl
    (by decide) (by decide) (by decide) s

theorem dash_not_mem (s : List Char) : '-' ∉ normalizeHeader s :=
  not_mem_normalizeHeader '-' (replacements.take 8) (replacements.drop 9) "_".data rfl
    (by decide) (by decide) (by decide) s

theorem slash_not_mem (s : List Char) : '/' ∉ normalizeHeader s :=
  not_mem_normalizeHeader '/' (replacements.take 9) (replacements.drop 10) "_".data rfl
    (by decide) (by decide) (by decide) s

theorem upperN_not_mem (s : List Char) : 'N' ∉ normalizeHeader s := by
  intro h
  rcases List.mem_map.mp h with ⟨c, _, hc⟩
  exact lowerChar_ne_N c hc

theorem upperM_not_mem (s : List Char) : 'M' ∉ normalizeHeader s := by
  intro h
  rcases List.mem_map.mp h with ⟨c, _, hc⟩
  exact lowerChar_ne_M c hc

theorem pyStrip_normalizeHeader (s : List Char) :
    pyStrip (normalizeHeader s) = normalizeHeader s := by
  apply pyStrip_eq_self
  · intro c hc
    rw [normalizeHeader, List.head?_map] at hc
    cases hv : (pyStrip (applyReplacements replacements s)).head? with
    | none => rw [hv] at hc; simp at hc
    | some d =>
      rw [hv] at hc
      have hdc : lowerChar d = c := by simpa using hc
      have hd := pyStrip_head?_not_space _ d hv
      rw [← hdc, pyIsSpace_lowerChar]
      exact hd
  · intro c hc
    rw [normalizeHeader, List.getLast?_map] at hc
    cases hv : (pyStrip (applyReplacements replacements s)).getLast? with
    | none => rw [hv] at hc; simp at hc
    | some d =>
      rw [hv] at hc
      have hdc : lowerChar d = c := by simpa using hc
      have hd := pyStrip_getLast?_not_space _ d hv
      rw [← hdc, pyIsSpace_lowerChar]
      exact hd

theorem map_lowerChar_normalizeHeader (s : List Char) :
    (normalizeHeader s).map lowerChar = normalizeHeader s := by
  rw [normalizeHeader, List.map_map]
  exact List.map_congr_left (fun a _ => lowerChar_idem a)

theorem applyReplacements_normalizeHeader (s : List Char)
    (h2 : ¬ ['_', '_'] <:+: normalizeHeader s) :
    applyReplacements replacements (normalizeHeader s) = normalizeHeader s := by
  apply applyReplacements_eq_self
  intro pr hpr
  fin_cases hpr
  · exact replaceList_eq_self _ _ _ (fun hinf => qmark_not_mem s (hinf.subset (by decide)))
  · exact replaceList_eq_self _ _ _ (fun hinf => lparen_not_mem s (hinf.subset (by decide)))
  · exact replaceList_eq_self _ _ _ (fun hinf => rparen_not_mem s (hinf.subset (by decide)))
  · exact replaceList_eq_self _ _ _ (fun hinf => space_not_mem s (hinf.subset (by decide)))
  · exact replaceList_eq_self _ _ _ (fun hinf => space_not_mem s (hinf.subset (by decide)))
  · exact replaceList_eq_self _ _ _ (fun hinf => space_not_mem s (hinf.subset (by decide)))
  · exact replaceList_eq_self _ _ _ (fun hinf => space_not_mem s (hinf.subset (by decide)))
  · exact replaceList_eq_self _ _ _ (fun hinf => space_not_mem s (hinf.subset (by decide)))
  · exact replaceList_eq_self _ _ _ (fun hinf => dash_not_mem s (hinf.subset (by decide)))
  · exact replaceList_eq_self _ _ _ (fun hinf => slash_not_mem s (hinf.subset (by decide)))
  · exact replaceList_eq_self _ _ _
      (fun hinf => h2 ((List.IsPrefix.isInfix (by decide)).trans hinf))
  · exact replaceList_eq_self _ _ _ (fun hinf => h2 hinf)
  · exact replaceList_eq_self _ _ _ (fun hinf => upperN_not_mem s (hinf.subset (by decide)))
  · exact replaceList_eq_self _ _ _ (fun hinf => upperN_not_mem s (hinf.subset (by decide)))
  · exact replaceList_eq_self _ _ _ (fun hinf => upperN_not_mem s (hinf.subset (by decide)))
  · exact replaceList_eq_self _ _ _ (fun hinf => upperM_not_mem s (hinf.subset (by decide)))

theorem normalizeHeader_idem (s : List Char)
    (h2 : ¬ ['_', '_'] <:+: normalizeHeader s) :
    normalizeHeader (normalizeHeader s) = normalizeHeader s := by
  show (pyStrip (applyReplacements replacements (normalizeHeader s))).map lowerChar
      = normalizeHeader s
  rw [applyReplacements_normalizeHeader s h2, pyStrip_normalizeHeader s,
    map_lowerChar_normalizeHeader s]

/-! ## Status records and the poll loop (extract.py lines 47-81) -/

/-- A report-file status record as returned by the reporting API: the
scheduling timestamp and the lifecycle status (`"PENDING"`, `"COMPLETED"`,
...).  The timestamp is modelled as a natural number; `main` only compares
timestamps with each other. -/
structure StatusRecord where
  schedulingDate : Nat
  reportFileStatus : List Char
deriving DecidableEq

/-- Insert a record into a list already sorted by `schedulingDate`, after
every record with a smaller-or-equal timestamp (matching the stability of
Python's `list.sort`). -/
def insertByDate (x : StatusRecord) : List StatusRecord → List StatusRecord
  | [] => [x]
  | y :: rest =>
    if x.schedulingDate < y.schedulingDate then x :: y :: rest
    else y :: insertByDate x rest

/-- `status_response_data.sort(key=lambda d: d["schedulingDate"])`
(line 74): stable ascending sort by `schedulingDate`. -/
def sortRecords (l : List StatusRecord) : List StatusRecord :=
  l.foldl (fun acc x => insertByDate x acc) []

/-- `status_response_data[-1]["reportFileStatus"]` after the sort
(line 75).  Python raises `IndexError` on an empty list, modelled by
`none`. -/
def latestStatus (records : List StatusRecord) : Option (List Char) :=
  (sortRecords records).getLast?.map (·.reportFileStatus)

/-- The status string `"COMPLETED"` the loop tests against. -/
def completedStatus : List Char := "COMPLETED".data

/-- Outcome of the `while report_file_status != "COMPLETED"` loop
(lines 71-81). -/
inductive PollOutcome where
  /-- The loop terminated; `finalStatus` is the value of
  `report_file_status` at exit. -/
  | exited (finalStatus : List Char)
  /-- `status_response_data[-1]` raised `IndexError`: the API returned
  zero status records. -/
  | indexError
  /-- The loop was still running after `fuel` iterations. -/
  | outOfFuel
deriving DecidableEq

/-- The poll loop.  `pages k` is the (already concatenated) list of status
records `get_all_data` returns at iteration `k`; `fuel` bounds the number
of iterations observed (the real loop has no bound; the `time.sleep(0.1)`
between iterations is not modelled). -/
def pollLoop (pages : Nat → List StatusRecord) : Nat → Nat → List Char → PollOutcome
  | _k, 0, status =>
    if status = completedStatus then .exited status else .outOfFuel
  | k, fuel + 1, status =>
    if status = completedStatus then .exited status
    else
      match latestStatus (pages k) with
      | none => .indexError
      | some s =>
        if s = completedStatus then .exited s
        else pollLoop pages (k + 1) fuel s

/-! ## Trigger handling (extract.py lines 53-65) -/

/-- Result of `smartrecruiters.post(report_url)` followed by
`raise_for_status()`: success with the response's `reportFileStatus`, an
`requests.exceptions.HTTPError`, or any other exception. -/
inductive TriggerResult where
  | ok (reportFileStatus : List Char)
  | httpError (message : List Char)
  | otherError
deriving DecidableEq

/-- What `main` does after the trigger `try`/`except`: either fall through
to the poll loop with a status, or `continue` to the next report id. -/
inductive TriggerAction where
  | proceed (status : List Char)
  | skip
deriving DecidableEq

/-- Lines 53-65: on success keep the reported status, on `HTTPError` log
and fall back to `"PENDING"`, on any other exception log and `continue`. -/
def handleTrigger : TriggerResult → TriggerAction
  | .ok s => .proceed s
  | .httpError _ => .proceed "PENDING".data
  | .otherError => .skip

/-! ## Paginated fetch: get_all_data (extract.py lines 24-34) -/

/-- One JSON response of the paginated status endpoint: its `"content"`
list and its optional `"nextPage"` field (`none` models both an absent and
a `null` field, as does `dict.get`). -/
structure Page (α τ : Type) where
  content : List α
  nextPage : Option τ

/-- The loop body of `get_all_data`: `fetch tok` is
`session.get(url, params={"page": tok}).json()`; `acc` is `all_data`.
`fuel` bounds the number of requests (the real loop is unbounded; `none`
means the bound was hit). -/
def getAllDataAux {α τ : Type} (fetch : Option τ → Page α τ) :
    Nat → Option τ → List α → Option (List α)
  | 0, _, _ => none
  | fuel + 1, tok, acc =>
    let p := fetch tok
    match p.nextPage with
    | none => some (acc ++ p.content)
    | some t => getAllDataAux fetch fuel (some t) (acc ++ p.content)

/-- `get_all_data(session, url)`: start with `next_page = None` and an
empty `all_data`. -/
def getAllData {α τ : Type} (fetch : Option τ → Page α τ) (fuel : Nat) :
    Option (List α) :=
  getAllDataAux fetch fuel none []

/-- The sequence of responses a run of `get_all_data` observes: `ps` is a
valid response trace for `fetch` starting from request token `tok` when
each page is what `fetch` returns for the current token, each non-final
page carries the `nextPage` token used for the next request, and exactly
the final page has no `nextPage`. -/
inductive IsTrace {α τ : Type} (fetch : Option τ → Page α τ) :
    Option τ → List (Page α τ) → Prop
  | last (tok : Option τ) (p : Page α τ) :
      fetch tok = p → p.nextPage = none → IsTrace fetch tok [p]
  | step (tok : Option τ) (p : Page α τ) (t : τ) (rest : List (Page α τ)) :
      fetch tok = p → p.nextPage = some t → IsTrace fetch (some t) rest →
      IsTrace fetch tok (p :: rest)

/-! ## Paths and persistence (extract.py lines 114-129) -/

/-- The path components appended below the project directory:
`PROJECT_PATH / "data" / report_id` (line 116). -/
def dataDirParts (projectParts : List (List Char)) (rid : List Char) :
    List (List Char) :=
  projectParts ++ ["data".data, rid]

/-- `data_path / f"{report_id}.csv"` (line 121), as a list of path parts. -/
def dataFilepathParts (projectParts : List (List Char)) (rid : List Char) :
    List (List Char) :=
  dataDirParts projectParts rid ++ [rid ++ ".csv".data]

/-- Python `parts[-2:]` for a list of path parts. -/
def lastTwo (l : List (List Char)) : List (List Char) :=
  l.drop (l.length - 2)

/-- Python `"/".join(parts)`. -/
def joinSlash (l : List (List Char)) : List Char :=
  List.intercalate "/".data l

/-- `destination_blob_name = "smartrecruiters/" + "/".join(data_filepath.parts[-2:])`
(line 125). -/
def destinationBlobName (projectParts : List (List Char)) (rid : List Char) :
    List Char :=
  "smartrecruiters/".data ++ joinSlash (lastTwo (dataFilepathParts projectParts rid))

/-- Local file-system state: which directories exist and what each file
contains. -/
structure FsState where
  dirExists : List (List Char) → Bool
  fileContent : List (List Char) → Option (List Char)

/-- Object-store state: the content stored under each key. -/
structure BucketState where
  objects : List Char → Option (List Char)

/-- `path.mkdir(parents=True)`: creates the directory and its missing
parents; raises `FileExistsError` (modelled by `none`) when the directory
itself already exists. -/
def mkdirParents (fs : FsState) (p : List (List Char)) : Option FsState :=
  if fs.dirExists p then none
  else some { fs with dirExists := fun q => q.isPrefixOf p || fs.dirExists q }

/-- `df.to_csv(data_filepath, index=False)`: create or overwrite the file. -/
def writeLocalCsv (fs : FsState) (p : List (List Char)) (content : List Char) :
    FsState :=
  { fs with fileContent := fun q => if q = p then some content else fs.fileContent q }

/-- `blob.upload_from_filename(...)`: create or overwrite the object. -/
def uploadBlob (b : BucketState) (key content : List Char) : BucketState :=
  { b with objects := fun k => if k = key then some content else b.objects k }

/-- Lines 114-129 of `main`: create the per-report directory unless it
exists, write the CSV, and upload it to the destination key.  `content` is
the serialized normalized table. -/
def persistReport (projectParts : List (List Char)) (fs : FsState)
    (b : BucketState) (rid content : List Char) :
    Option (FsState × BucketState) :=
  let dataPath := dataDirParts projectParts rid
  let step1 : Option FsState :=
    if fs.dirExists dataPath then some fs else mkdirParents fs dataPath
  match step1 with
  | none => none
  | some fs1 =>
    let fs2 := writeLocalCsv fs1 (dataFilepathParts projectParts rid) content
    some (fs2, uploadBlob b (destinationBlobName projectParts rid) content)

/-! ## The per-report pipeline and the outer loop (extract.py lines 47-129) -/

/-- The external responses one report id observes: the trigger outcome and
the status records returned at each poll iteration. -/
structure ApiOracle where
  trigger : TriggerResult
  statusPages : Nat → List StatusRecord

/-- What happened to one report id. -/
inductive ReportPhase where
  /-- The trigger raised a non-HTTP exception; `continue` was executed. -/
  | skippedReport
  /-- The pipeline reached the poll loop with `initialStatus` and the loop
  produced `outcome`. -/
  | polled (initialStatus : List Char) (outcome : PollOutcome)

/-- Run the trigger-and-poll part of one loop iteration of `main`. -/
def runReport (o : ApiOracle) (fuel : Nat) : ReportPhase :=
  match handleTrigger o.trigger with
  | .skip => .skippedReport
  | .proceed st => .polled st (pollLoop o.statusPages 0 fuel st)

/-- Ways the whole run can fail to continue past a report. -/
inductive RunAbort where
  /-- An uncaught `IndexError` in the poll loop killed the run. -/
  | indexError
  /-- A poll loop was still running when the fuel ran out. -/
  | neverCompletes
deriving DecidableEq

/-- The `for report_id in report_ids` loop: process each report in order;
a skipped report lets the loop continue, an uncaught poll failure aborts
the whole run (nothing catches exceptions around the poll loop). -/
def runAll (fuel : Nat) : List ApiOracle → Except RunAbort (List ReportPhase)
  | [] => .ok []
  | o :: rest =>
    match runReport o fuel with
    | .skippedReport => (runAll fuel rest).map (ReportPhase.skippedReport :: ·)
    | .polled st out =>
      match out with
      | .exited f => (runAll fuel rest).map (ReportPhase.polled st (.exited f) :: ·)
      | .indexError => .error .indexError
      | .outOfFuel => .error .neverCompletes

/-! ## Lemmas about the record sort -/

/-- The ordering `main` sorts status records by. -/
def dateLe (a b : StatusRecord) : Prop :=
  a.schedulingDate ≤ b.schedulingDate

theorem mem_insertByDate : ∀ (l : List StatusRecord) (x y : StatusRecord),
    x ∈ insertByDate y l ↔ x = y ∨ x ∈ l := by
  intro l
  induction l with
  | nil => intro x y; simp [insertByDate]
  | cons a rest ih =>
    intro x y
    rw [insertByDate]
    by_cases h : y.schedulingDate < a.schedulingDate
    · rw [if_pos h]; simp [List.mem_cons]
    · rw [if_neg h]
      simp only [List.mem_cons, ih]
      tauto

theorem pairwise_insertByDate (y : StatusRecord) :
    ∀ l, List.Pairwise dateLe l → List.Pairwise dateLe (insertByDate y l) := by
  intro l
  induction l with
  | nil => intro _; simp [insertByDate]
  | cons a rest ih =>
    intro hp
    rw [List.pairwise_cons] at hp
    obtain ⟨ha, hrest⟩ := hp
    rw [insertByDate]
    by_cases h : y.schedulingDate < a.schedulingDate
    · rw [if_pos h, List.pairwise_cons]
      constructor
      · intro z hz
        rcases List.mem_cons.mp hz with hz | hz
        · subst hz; exact Nat.le_of_lt h
        · exact Nat.le_trans (Nat.le_of_lt h) (ha z hz)
      · rw [List.pairwise_cons]; exact ⟨ha, hrest⟩
    · rw [if_neg h, List.pairwise_cons]
      constructor
      · intro z hz
        rcases (mem_insertByDate rest z y).mp hz with hz | hz
        · subst hz; exact Nat.le_of_not_lt h
        · exact ha z hz
      · exact ih hrest

theorem mem_sortRecords_aux : ∀ (l acc : List StatusRecord) (x : StatusRecord),
    x ∈ List.foldl (fun acc y => insertByDate y acc) acc l ↔ x ∈ acc ∨ x ∈ l := by
  intro l
  induction l with
  | nil => intro acc x; simp
  | cons a rest ih =>
    intro acc x
    rw [List.foldl_cons, ih, mem_insertByDate]
    simp only [List.mem_cons]
    tauto

theorem pairwise_sortRecords_aux : ∀ (l acc : List StatusRecord),
    List.Pairwise dateLe acc →
    List.Pairwise dateLe (List.foldl (fun acc y => insertByDate y acc) acc l) := by
  intro l
  induction l with
  | nil => intro acc h; exact h
  | cons a rest ih =>
    intro acc h
    rw [List.foldl_cons]
    exact ih _ (pairwise_insertByDate a acc h)

theorem mem_sortRecords (l : List StatusRecord) (x : StatusRecord) :
    x ∈ sortRecords l ↔ x ∈ l := by
  rw [sortRecords, mem_sortRecords_aux]
  simp

theorem pairwise_sortRecords (l : List StatusRecord) :
    List.Pairwise dateLe (sortRecords l) :=
  pairwise_sortRecords_aux l [] (by simp)

theorem mem_of_getLast?_eq {α : Type} (l : List α) (m : α)
    (h : l.getLast? = some m) : m ∈ l := by
  cases l with
  | nil => simp at h
  | cons a t =>
    have hne : a :: t ≠ [] := by simp
    rw [List.getLast?_eq_getLast _ hne] at h
    exact (Option.some_inj.mp h) ▸ List.getLast_mem hne

theorem getLast?_max_of_pairwise : ∀ (l : List StatusRecord),
    List.Pairwise dateLe l → ∀ x ∈ l, ∀ m, l.getLast? = some m →
    x.schedulingDate ≤ m.schedulingDate := by
  intro l
  induction l with
  | nil => intro _ x hx; simp at hx
  | cons a rest ih =>
    intro hp x hx m hm
    rw [List.pairwise_cons] at hp
    cases rest with
    | nil =>
      simp only [List.getLast?_singleton, Option.some_inj] at hm
      rcases List.mem_singleton.mp hx with hx
      subst hx; subst hm; exact Nat.le_refl _
    | cons b bs =>
      rw [List.getLast?_cons_cons] at hm
      rcases List.mem_cons.mp hx with hx | hx
      · subst hx
        exact hp.1 m (mem_of_getLast?_eq _ m hm)
      · exact ih hp.2 x hx m hm

theorem sortRecords_ne_nil (l : List StatusRecord) (h : l ≠ []) :
    sortRecords l ≠ [] := by
  cases l with
  | nil => exact absurd rfl h
  | cons a t =>
    intro he
    have := (mem_sortRecords (a :: t) a).mpr (List.mem_cons_self a t)
    rw [he] at this
    simp at this

/-! ## Lemmas about the poll loop -/

theorem pollLoop_exited (pages : Nat → List StatusRecord) :
    ∀ (fuel k : Nat) (status f : List Char),
      pollLoop pages k fuel status = .exited f → f = completedStatus := by
  intro fuel
  induction fuel with
  | zero =>
    intro k status f h
    simp only [pollLoop] at h
    by_cases hs : status = completedStatus
    · rw [if_pos hs] at h
      injection h with h'
      exact h' ▸ hs
    · rw [if_neg hs] at h
      exact PollOutcome.noConfusion h
  | succ n ih =>
    intro k status f h
    simp only [pollLoop] at h
    by_cases hs : status = completedStatus
    · rw [if_pos hs] at h
      injection h with h'
      exact h' ▸ hs
    · rw [if_neg hs] at h
      cases hl : latestStatus (pages k) with
      | none => rw [hl] at h; exact PollOutcome.noConfusion h
      | some s =>
        rw [hl] at h
        dsimp only at h
        by_cases hsc : s = completedStatus
        · rw [if_pos hsc] at h
          injection h with h'
          exact h' ▸ hsc
        · rw [if_neg hsc] at h
          exact ih (k + 1) s f h

theorem pollLoop_stuck (pages : Nat → List StatusRecord)
    (hpages : ∀ j, ∃ s, latestStatus (pages j) = some s ∧ s ≠ completedStatus) :
    ∀ (fuel k : Nat) (status : List Char), status ≠ completedStatus →
      pollLoop pages k fuel status = .outOfFuel := by
  intro fuel
  induction fuel with
  | zero =>
    intro k status hs
    simp only [pollLoop]
    rw [if_neg hs]
  | succ n ih =>
    intro k status hs
    simp only [pollLoop]
    rw [if_neg hs]
    obtain ⟨s, hsome, hsne⟩ := hpages k
    rw [hsome]
    dsimp only
    rw [if_neg hsne]
    exact ih (k + 1) s hsne

/-! ## Lemmas about the paginated fetch -/

theorem getAllDataAux_trace {α τ : Type} (fetch : Option τ → Page α τ) :
    ∀ (tok : Option τ) (ps : List (Page α τ)), IsTrace fetch tok ps →
      ∀ (fuel : Nat), ps.length ≤ fuel → ∀ (acc : List α),
        getAllDataAux fetch fuel tok acc
          = some (acc ++ (ps.map (fun p => p.content)).flatten) := by
  intro tok ps htrace
  induction htrace with
  | last tok p hfetch hnext =>
    intro fuel hfuel acc
    cases fuel with
    | zero => simp at hfuel
    | succ n =>
      simp only [getAllDataAux]
      rw [hfetch, hnext]
      simp
  | step tok p t rest hfetch hnext htr ih =>
    intro fuel hfuel acc
    cases fuel with
    | zero => simp at hfuel
    | succ n =>
      simp only [getAllDataAux]
      rw [hfetch, hnext]
      dsimp only
      rw [ih n (by simpa using Nat.le_of_succ_le_succ hfuel) (acc ++ p.content)]
      simp

/-! ## Lemmas about persistence -/

theorem persistReport_succeeds (pp : List (List Char)) (fs : FsState)
    (b : BucketState) (rid content : List Char) :
    ∃ fs1 b1, persistReport pp fs b rid content = some (fs1, b1) ∧
      fs1.fileContent (dataFilepathParts pp rid) = some content ∧
      b1.objects (destinationBlobName pp rid) = some content ∧
      fs1.dirExists (dataDirParts pp rid) = true := by
  by_cases hdir : fs.dirExists (dataDirParts pp rid)
  · refine ⟨writeLocalCsv fs (dataFilepathParts pp rid) content,
      uploadBlob b (destinationBlobName pp rid) content, ?_, ?_, ?_, ?_⟩
    · simp [persistReport, hdir]
    · simp [writeLocalCsv]
    · simp [uploadBlob]
    · simpa [writeLocalCsv] using hdir
  · refine ⟨writeLocalCsv
        { fs with dirExists :=
            fun q => q.isPrefixOf (dataDirParts pp rid) || fs.dirExists q }
        (dataFilepathParts pp rid) content,
      uploadBlob b (destinationBlobName pp rid) content, ?_, ?_, ?_, ?_⟩
    · simp [persistReport, hdir, mkdirParents]
    · simp [writeLocalCsv]
    · simp [uploadBlob]
    · simp [writeLocalCsv]

/-! ## The claims -/

/-- C1: normalizing the column label
`"Screening Question Answer: Are you willing to relocate?"` yields exactly
`"are_you_willing_to_relocate"`. -/
theorem screening_question_normalization :
    normalizeHeader "Screening Question Answer: Are you willing to relocate?".data
      = "are_you_willing_to_relocate".data := by decide

/-- C2, counterexample: header normalization is not idempotent on every
string.  `"_____"` normalizes to `"__"` (the `"___" -> "_"` pass leaves
`"___"`, which the `"__" -> "_"` pass shortens to `"__"`), and a second
application shortens `"__"` to `"_"`. -/
theorem normalize_not_idempotent_on_underscores :
    normalizeHeader (normalizeHeader "_____".data) ≠ normalizeHeader "_____".data := by
  decide

/-- C2 (amended): header normalization is deterministic, and it is
idempotent on every input whose normalized form contains no two adjacent
underscores (the only strings on which a second application differs, by
the `"__" -> "_"` replacement). -/
theorem normalizeHeader_deterministic_idem (s : List Char)
    (h : ¬ ['_', '_'] <:+: normalizeHeader s) :
    normalizeHeader s = normalizeHeader s ∧
    normalizeHeader (normalizeHeader s) = normalizeHeader s :=
  ⟨rfl, normalizeHeader_idem s h⟩

/-- C2 witness: the amended idempotence applied at `"Abc"`. -/
theorem normalizeHeader_deterministic_idem_witness :
    ¬ ['_', '_'] <:+: normalizeHeader "Abc".data ∧
    normalizeHeader (normalizeHeader "Abc".data) = normalizeHeader "Abc".data :=
  ⟨by decide, (normalizeHeader_deterministic_idem "Abc".data (by decide)).2⟩

/-- C3: for a non-empty record list, sorting by `schedulingDate` and taking
the last element yields a record of the list whose `schedulingDate` is
maximal, and its `reportFileStatus` is the status the poller uses. -/
theorem poller_selects_max_schedulingDate (l : List StatusRecord) (h : l ≠ []) :
    ∃ rec, (sortRecords l).getLast? = some rec ∧ rec ∈ l ∧
      (∀ r ∈ l, r.schedulingDate ≤ rec.schedulingDate) ∧
      latestStatus l = some rec.reportFileStatus := by
  have hne := sortRecords_ne_nil l h
  obtain ⟨rec, hrec⟩ : ∃ m, (sortRecords l).getLast? = some m :=
    ⟨(sortRecords l).getLast hne, List.getLast?_eq_getLast _ hne⟩
  refine ⟨rec, hrec, ?_, ?_, ?_⟩
  · exact (mem_sortRecords l rec).mp (mem_of_getLast?_eq _ rec hrec)
  · intro r hr
    exact getLast?_max_of_pairwise _ (pairwise_sortRecords l) r
      ((mem_sortRecords l r).mpr hr) rec hrec
  · rw [latestStatus, hrec]
    rfl

/-- C3 witness: the selection applied to a concrete two-record list. -/
theorem poller_selects_max_schedulingDate_witness :
    ∃ rec, (sortRecords [⟨5, "COMPLETED".data⟩, ⟨1, "PENDING".data⟩]).getLast?
        = some rec ∧
      rec ∈ [(⟨5, "COMPLETED".data⟩ : StatusRecord), ⟨1, "PENDING".data⟩] ∧
      (∀ r ∈ [(⟨5, "COMPLETED".data⟩ : StatusRecord), ⟨1, "PENDING".data⟩],
        r.schedulingDate ≤ rec.schedulingDate) ∧
      latestStatus [⟨5, "COMPLETED".data⟩, ⟨1, "PENDING".data⟩]
        = some rec.reportFileStatus :=
  poller_selects_max_schedulingDate
    [⟨5, "COMPLETED".data⟩, ⟨1, "PENDING".data⟩] (by decide)

/-- C4: the destination object-store key computed from the local file path
is `smartrecruiters/` followed by the report-id directory, a slash, and
the `{report_id}.csv` filename, for every project path and report id. -/
theorem destination_key_eq (pp : List (List Char)) (rid : List Char) :
    destinationBlobName pp rid
      = "smartrecruiters/".data ++ rid ++ "/".data ++ rid ++ ".csv".data := by
  rw [destinationBlobName, dataFilepathParts, dataDirParts]
  have hassoc : (pp ++ ["data".data, rid]) ++ [rid ++ ".csv".data]
      = (pp ++ ["data".data]) ++ [rid, rid ++ ".csv".data] := by
    simp
  rw [hassoc, lastTwo]
  have hlen : ((pp ++ ["data".data]) ++ [rid, rid ++ ".csv".data]).length - 2
      = (pp ++ ["data".data]).length := by
    simp
  rw [hlen, List.drop_left, joinSlash]
  simp [List.intercalate]

/-- C5: if the trigger fails with an HTTP error the status falls back to
`"PENDING"` and the pipeline proceeds to the poll loop; on any other
exception the report is skipped and the outer loop continues with the
remaining report ids. -/
theorem trigger_error_handling (o : ApiOracle) (rest : List ApiOracle)
    (fuel : Nat) (m : List Char) :
    (o.trigger = .httpError m →
      runReport o fuel
        = .polled "PENDING".data (pollLoop o.statusPages 0 fuel "PENDING".data)) ∧
    (o.trigger = .otherError →
      runReport o fuel = .skippedReport ∧
      runAll fuel (o :: rest)
        = (runAll fuel rest).map (fun phs => ReportPhase.skippedReport :: phs)) := by
  constructor
  · intro h
    rw [runReport, h]
    rfl
  · intro h
    have h1 : runReport o fuel = .skippedReport := by
      rw [runReport, h]
      rfl
    refine ⟨h1, ?_⟩
    rw [runAll, h1]

/-- C5 witness: both trigger-failure branches at concrete oracles. -/
theorem trigger_error_handling_witness :
    runReport ⟨TriggerResult.httpError "err".data, fun _ => []⟩ 1
      = ReportPhase.polled "PENDING".data
          (pollLoop (fun _ => []) 0 1 "PENDING".data) ∧
    runAll 1 [⟨TriggerResult.otherError, fun _ => []⟩]
      = (runAll 1 []).map (fun phs => ReportPhase.skippedReport :: phs) :=
  ⟨(trigger_error_handling ⟨TriggerResult.httpError "err".data, fun _ => []⟩
      [] 1 "err".data).1 rfl,
   ((trigger_error_handling ⟨TriggerResult.otherError, fun _ => []⟩
      [] 1 "err".data).2 rfl).2⟩

/-- C6: the poll loop can only hand control to the download step with
status `"COMPLETED"` (every normal exit carries that status), and when no
poll iteration ever reports `"COMPLETED"` the loop keeps running for every
iteration bound: there is no timeout or retry limit. -/
theorem poll_loop_only_exits_completed (pages : Nat → List StatusRecord)
    (k fuel : Nat) (status : List Char) :
    (∀ f, pollLoop pages k fuel status = .exited f → f = completedStatus) ∧
    (status ≠ completedStatus →
      (∀ j, ∃ s, latestStatus (pages j) = some s ∧ s ≠ completedStatus) →
      pollLoop pages k fuel status = .outOfFuel) :=
  ⟨fun f h => pollLoop_exited pages fuel k status f h,
   fun hs hp => pollLoop_stuck pages hp fuel k status hs⟩

/-- C6 witness: a loop that only ever sees `"PENDING"` is still running
after 3 iterations, and a loop exiting normally exits with `"COMPLETED"`. -/
theorem poll_loop_only_exits_completed_witness :
    pollLoop (fun _ => [⟨0, "PENDING".data⟩]) 0 3 "PENDING".data
      = PollOutcome.outOfFuel ∧
    "COMPLETED".data = completedStatus :=
  ⟨(poll_loop_only_exits_completed (fun _ => [⟨0, "PENDING".data⟩])
      0 3 "PENDING".data).2 (by decide)
      (fun _ => ⟨"PENDING".data, rfl, by decide⟩),
   (poll_loop_only_exits_completed (fun _ => [⟨0, "COMPLETED".data⟩])
      0 2 "PENDING".data).1 "COMPLETED".data (by decide)⟩

/-- C7: over any terminating chain of paginated responses, `get_all_data`
returns the concatenation, in request order, of the pages' `content`
lists; the first request carries no page token, each later request carries
the previous response's `nextPage`, and requests stop exactly at the first
response without a `nextPage`. -/
theorem get_all_data_concatenates {α τ : Type} (fetch : Option τ → Page α τ)
    (ps : List (Page α τ)) (fuel : Nat)
    (htrace : IsTrace fetch none ps) (hfuel : ps.length ≤ fuel) :
    getAllData fetch fuel = some ((ps.map (fun p => p.content)).flatten) := by
  rw [getAllData, getAllDataAux_trace fetch none ps htrace fuel hfuel []]
  simp

/-- C7 witness: a two-page trace with contents `[1, 2]` and `[3]`. -/
theorem get_all_data_concatenates_witness :
    getAllData
      (fun tok => match tok with
        | none => ⟨[1, 2], some 0⟩
        | some _ => (⟨[3], none⟩ : Page Nat Nat)) 2 = some [1, 2, 3] := by
  have h := get_all_data_concatenates
    (fun tok => match tok with
      | none => ⟨[1, 2], some 0⟩
      | some _ => (⟨[3], none⟩ : Page Nat Nat))
    [⟨[1, 2], some 0⟩, ⟨[3], none⟩] 2
    (IsTrace.step none _ 0 _ rfl rfl (IsTrace.last (some 0) _ rfl rfl))
    (by decide)
  simpa using h

/-- C8: re-running the persistence step with the same data succeeds and
overwrites: each run succeeds for every starting state (the existence
check guards `mkdir`), leaves the CSV content at the per-report path, and
leaves the uploaded content at the destination key; after the first run
the directory exists, so the second run skips directory creation and
overwrites both the local file and the remote object. -/
theorem rerun_persists_and_overwrites (pp : List (List Char)) (fs : FsState)
    (b : BucketState) (rid content : List Char) :
    ∃ fs1 b1, persistReport pp fs b rid content = some (fs1, b1) ∧
      fs1.fileContent (dataFilepathParts pp rid) = some content ∧
      b1.objects (destinationBlobName pp rid) = some content ∧
      fs1.dirExists (dataDirParts pp rid) = true ∧
      ∃ fs2 b2, persistReport pp fs1 b1 rid content = some (fs2, b2) ∧
        fs2.fileContent (dataFilepathParts pp rid) = some content ∧
        b2.objects (destinationBlobName pp rid) = some content := by
  obtain ⟨fs1, b1, h1, hf1, hb1, hd1⟩ := persistReport_succeeds pp fs b rid content
  obtain ⟨fs2, b2, h2, hf2, hb2, _⟩ := persistReport_succeeds pp fs1 b1 rid content
  exact ⟨fs1, b1, h1, hf1, hb1, hd1, fs2, b2, h2, hf2, hb2⟩

/-- C9: `status_response_data[-1]` has no result on an empty record list,
and when the API returns zero status records at the first poll iteration
for a report whose trigger succeeded with a non-`"COMPLETED"` status, the
whole run aborts with the index error (no branch handles the empty
case). -/
theorem empty_status_aborts_run (o : ApiOracle) (rest : List ApiOracle)
    (fuel : Nat) (st : List Char)
    (h1 : o.trigger = .ok st) (h2 : st ≠ completedStatus)
    (h3 : o.statusPages 0 = []) :
    latestStatus [] = none ∧
    runAll (fuel + 1) (o :: rest) = .error .indexError := by
  refine ⟨rfl, ?_⟩
  have hrun : runReport o (fuel + 1)
      = .polled st (pollLoop o.statusPages 0 (fuel + 1) st) := by
    rw [runReport, h1]
    rfl
  have hpoll : pollLoop o.statusPages 0 (fuel + 1) st = .indexError := by
    simp only [pollLoop]
    rw [if_neg h2, h3]
    rfl
  rw [runAll, hrun, hpoll]

/-- C9 witness: a concrete run with an empty status page aborts. -/
theorem empty_status_aborts_run_witness :
    latestStatus [] = none ∧
    runAll 1 [⟨TriggerResult.ok "PENDING".data, fun _ => []⟩]
      = Except.error RunAbort.indexError :=
  empty_status_aborts_run ⟨TriggerResult.ok "PENDING".data, fun _ => []⟩
    [] 0 "PENDING".data rfl (by decide) rfl

/-- C10: for every input string, the normalized header contains no `'?'`,
no `'('`, no `')'` and no space: each is removed or replaced by the
replacement chain and no later step reintroduces one. -/
theorem normalized_header_free_of_specials (s : List Char) :
    '?' ∉ normalizeHeader s ∧ '(' ∉ normalizeHeader s ∧
    ')' ∉ normalizeHeader s ∧ ' ' ∉ normalizeHeader s :=
  ⟨qmark_not_mem s, lparen_not_mem s, rparen_not_mem s, space_not_mem s⟩

end SmartrecruitersSync
